import Mathlib

/-
Verification development for folk-stream-mux
(src/user-programs/folk-rooprob1/presenter/folk-stream-mux.c).

The file shallowly embeds the core of the multiplexer: the JPEG frame
extractor (last_jpeg), the input accumulation buffer management (drain),
the control-line parser (process_ctl_line), the frame selection logic
(choose_frame / elapsed_ms), the output sink retry loop (write_stdout)
and the process exit path, and proves theorems about them.

Bytes are modelled as natural numbers (the C code only ever compares
them against the literals 0xFF, 0xD8, 0xD9), buffers as lists of bytes,
and byte offsets as naturals.  Time is modelled exactly: a timespec is a
pair of integers and elapsed_ms is a rational; at the millisecond
boundaries relevant to the staleness threshold the C double arithmetic
is exact, so the rational model agrees with the code there.
-/

set_option maxHeartbeats 1000000

namespace FolkMux

/-- READ_BUF_SIZE from the C source: capacity of an input accumulation
buffer. -/
def READ_BUF_SIZE : Nat := 2 * 1024 * 1024

/-- MAX_FRAME_SIZE from the C source: largest frame the extractor will
report and the capacity of the per-input frame cache. -/
def MAX_FRAME_SIZE : Nat := 1 * 1024 * 1024

/-! ## JPEG frame extraction (last_jpeg)

The C function last_jpeg is a single pass: an outer loop searches for an
SOI marker (0xFF 0xD8); once one is found at position `pos`, an inner
loop searches from `pos + 2` for an EOI marker (0xFF 0xD9).  On a match
at `j` the region `(pos, j + 2 - pos)` replaces the best candidate if it
fits the size bound, and the outer scan resumes at `j + 2`; if the inner
loop runs off the end of the buffer the whole scan stops (dangling SOI).
We embed the two loops as one structurally recursive function over the
remaining suffix of the buffer, with a mode flag recording whether we
are looking for an SOI or for the EOI matching a recorded start.  The
size bound is taken as a parameter `M`; the C code fixes
`M = MAX_FRAME_SIZE`. -/

/-- Scanner mode: looking for a start marker, or looking for the end
marker of the frame that started at `start`. -/
inductive ScanMode
  | seekSOI : ScanMode
  | seekEOI (start : Nat) : ScanMode
deriving DecidableEq, Repr

/-- The scan loop of last_jpeg.  `l` is the suffix of the buffer from
the current position, `pos` the absolute index of its first byte,
`best` the best (offset, length) candidate so far.  Mirrors the C loops
under the correspondence pos+1 < buflen  ⟺  l has at least two bytes. -/
def jpegScan (M : Nat) : List Nat → Nat → ScanMode → Option (Nat × Nat) →
    Option (Nat × Nat)
  | a :: b :: rest, pos, ScanMode.seekSOI, best =>
      if a = 255 ∧ b = 216 then
        jpegScan M rest (pos + 2) (ScanMode.seekEOI pos) best
      else
        jpegScan M (b :: rest) (pos + 1) ScanMode.seekSOI best
  | a :: b :: rest, j, ScanMode.seekEOI start, best =>
      if a = 255 ∧ b = 217 then
        jpegScan M rest (j + 2) ScanMode.seekSOI
          (if j + 2 - start ≤ M then some (start, j + 2 - start) else best)
      else
        jpegScan M (b :: rest) (j + 1) (ScanMode.seekEOI start) best
  | _, _, _, best => best

/-- last_jpeg from the C source: scan the buffer for the last complete
JPEG frame of size at most MAX_FRAME_SIZE, returning its (offset,
length), or none. -/
def last_jpeg (buf : List Nat) : Option (Nat × Nat) :=
  jpegScan MAX_FRAME_SIZE buf 0 ScanMode.seekSOI none

/-! ### The greedy frame decomposition

For the statements we also define, by the same scan, the list of all
delimited regions the scan encounters (ignoring the size bound): the
greedy SOI→first-EOI decomposition that the C loop walks through.  The
spec's "complete start…end delimited regions" of a buffer are exactly
these regions. -/

/-- All delimited regions the scan of last_jpeg walks through, in scan
order, with no size filtering. -/
def framesScan : List Nat → Nat → ScanMode → List (Nat × Nat)
  | a :: b :: rest, pos, ScanMode.seekSOI =>
      if a = 255 ∧ b = 216 then
        framesScan rest (pos + 2) (ScanMode.seekEOI pos)
      else
        framesScan (b :: rest) (pos + 1) ScanMode.seekSOI
  | a :: b :: rest, j, ScanMode.seekEOI start =>
      if a = 255 ∧ b = 217 then
        (start, j + 2 - start) :: framesScan rest (j + 2) ScanMode.seekSOI
      else
        framesScan (b :: rest) (j + 1) (ScanMode.seekEOI start)
  | _, _, _ => []

/-- The complete delimited regions of a buffer, in order of occurrence. -/
def jpegFrames (buf : List Nat) : List (Nat × Nat) :=
  framesScan buf 0 ScanMode.seekSOI

/-- The regions of a buffer that fit the size bound M: the candidate
frames last_jpeg chooses among (with M = MAX_FRAME_SIZE). -/
def validFrames (M : Nat) (buf : List Nat) : List (Nat × Nat) :=
  (jpegFrames buf).filter (fun p => decide (p.2 ≤ M))

/-- Folding the frame list the way the scan updates its `best`
candidate: the last size-valid frame wins, else the initial best. -/
def lastValidFrame (M : Nat) : List (Nat × Nat) → Option (Nat × Nat) →
    Option (Nat × Nat)
  | [], best => best
  | f :: rest, best =>
      lastValidFrame M rest (if f.2 ≤ M then some f else best)

/-- Lower bound on the offsets of frames the scan can still produce. -/
def minStart : ScanMode → Nat → Nat
  | ScanMode.seekSOI, pos => pos
  | ScanMode.seekEOI s, _ => s

/-- Well-formedness of the scanner state: in seekEOI mode the recorded
start lies at least two bytes before the current position (the SOI
marker has been consumed). -/
def modeOK : ScanMode → Nat → Prop
  | ScanMode.seekSOI, _ => True
  | ScanMode.seekEOI s, pos => s + 2 ≤ pos

/-! ## Time and frame selection (elapsed_ms, choose_frame)

The C code keeps, per input, the latest extracted frame with the
CLOCK_MONOTONIC timespec of its capture, and selects a frame with
choose_frame according to the global mode/selected pair.  A timespec is
a (seconds, nanoseconds) pair of integers; elapsed_ms computes
milliseconds as a rational (exact arithmetic — see the header note).
choose_frame in C returns a pointer into one of the frame caches or the
testcard blob; the embedding returns the identity of that buffer
together with the length it reports. -/

/-- The three values of the C enum MuxMode. -/
inductive MuxMode
  | MODE_AUTO
  | MODE_SOURCE
  | MODE_TESTCARD
deriving DecidableEq, Repr

/-- struct timespec as used by the code: integer seconds and
nanoseconds. -/
structure Timespec where
  tv_sec : Int
  tv_nsec : Int
deriving DecidableEq, Repr

/-- elapsed_ms from the C source: milliseconds from a to b. -/
def elapsed_ms (a b : Timespec) : ℚ :=
  ((b.tv_sec - a.tv_sec : ℤ) : ℚ) * 1000 +
    ((b.tv_nsec - a.tv_nsec : ℤ) : ℚ) / 1000000

/-- Per-input state: the cached frame bytes, its reported size and its
capture time (read_buf state is modelled separately for drain). -/
structure Input where
  frame : List Nat
  frame_size : Nat
  frame_time : Timespec
deriving DecidableEq, Repr

/-- Identity of the buffer a choose_frame result points into. -/
inductive FrameSrc
  | input (i : Nat)
  | card
deriving DecidableEq, Repr

/-- The per-input eligibility test of choose_frame:
frame_size > 0 && elapsed_ms(frame_time, now) < timeout_ms. -/
def isFresh (inp : Input) (now : Timespec) (timeout_ms : Int) : Bool :=
  decide (0 < inp.frame_size) &&
    decide (elapsed_ms inp.frame_time now < (timeout_ms : ℚ))

/-- The mutable globals of the multiplexer that frame selection and
control-command processing read and write. -/
structure MuxState where
  mode : MuxMode
  selected : Int
  num_inputs : Nat
  inputs : List Input
  testcard : Option (List Nat)
  testcard_size : Nat
  timeout_ms : Int
deriving DecidableEq, Repr

/-- The use_testcard tail of choose_frame: the testcard blob if one is
loaded with positive size, else no frame. -/
def use_testcard (s : MuxState) : Option (FrameSrc × Nat) :=
  if s.testcard.isSome ∧ 0 < s.testcard_size then
    some (FrameSrc.card, s.testcard_size)
  else none

/-- The MODE_AUTO loop of choose_frame: scan indices k-1, k-2, …, 0 and
return the first fresh input.  Called with k = num_inputs, so it starts
at the highest index. -/
def autoScan (inputs : List Input) (now : Timespec) (timeout_ms : Int) :
    Nat → Option (FrameSrc × Nat)
  | 0 => none
  | Nat.succ i =>
      match inputs.get? i with
      | some inp =>
          if isFresh inp now timeout_ms then
            some (FrameSrc.input i, inp.frame_size)
          else autoScan inputs now timeout_ms i
      | none => autoScan inputs now timeout_ms i

/-- choose_frame from the C source.  MODE_TESTCARD goes straight to the
testcard; MODE_SOURCE with an in-range selected index returns that
input's frame if fresh and otherwise falls through to the testcard
(never to another input); every other case runs the auto scan, whose
failure also falls through to the testcard. -/
def choose_frame (s : MuxState) (now : Timespec) : Option (FrameSrc × Nat) :=
  if s.mode = MuxMode.MODE_TESTCARD then use_testcard s
  else if s.mode = MuxMode.MODE_SOURCE ∧ 0 ≤ s.selected ∧
      s.selected < (s.num_inputs : Int) then
    match s.inputs.get? s.selected.toNat with
    | some inp =>
        if isFresh inp now s.timeout_ms then
          some (FrameSrc.input s.selected.toNat, inp.frame_size)
        else use_testcard s
    | none => use_testcard s
  else
    match autoScan s.inputs now s.timeout_ms s.num_inputs with
    | some r => some r
    | none => use_testcard s

/-! ## Control-line processing (process_ctl_line)

drain_ctl splits the control buffer at newlines and hands each complete
line (as a NUL-terminated C string, here a char list) to
process_ctl_line, which mutates the mode/selected globals.  The C code
first skips leading spaces and tabs, then strips trailing newline,
carriage-return and space characters, then matches:
  - a "source " prefix, whose remainder goes through atoi; an in-range
    result switches to MODE_SOURCE with that index, out of range is a
    no-op;
  - the exact string "testcard" → MODE_TESTCARD, selected −1;
  - the exact string "auto" → MODE_AUTO, selected −1;
  - anything else is logged and ignored. -/

/-- The leading-whitespace skip of process_ctl_line: only space and
tab. -/
def trimLeading : List Char → List Char
  | [] => []
  | c :: rest => if c = ' ' ∨ c = '\t' then trimLeading rest else c :: rest

/-- The trailing trim of process_ctl_line: strip newline, carriage
return and space (not tab) from the end. -/
def trimTrailing (l : List Char) : List Char :=
  (l.reverse.dropWhile (fun c => c == '\n' || c == '\r' || c == ' ')).reverse

/-- strncmp(line, pfx, pfx.length) == 0. -/
def startsWith : List Char → List Char → Bool
  | [], _ => true
  | _ :: _, [] => false
  | c :: ps, d :: rest => c == d && startsWith ps rest

/-- isspace of the C locale, as consumed by atoi. -/
def c_isspace (c : Char) : Bool :=
  c == ' ' || c == '\t' || c == '\n' || c == '\x0b' || c == '\x0c' || c == '\r'

/-- The digit-consuming loop of atoi: accumulate decimal digits, stop
at the first non-digit. -/
def atoiDigits : List Char → Nat → Nat
  | [], acc => acc
  | c :: rest, acc =>
      if c.isDigit then atoiDigits rest (acc * 10 + (c.toNat - 48)) else acc

/-- atoi from the C library: skip leading whitespace, optional sign,
then decimal digits; no digits parses as 0 (overflow, which is
undefined behaviour in C, is modelled as exact integer arithmetic). -/
def atoi (l : List Char) : Int :=
  match l.dropWhile c_isspace with
  | [] => 0
  | c :: rest =>
      if c = '-' then -(atoiDigits rest 0 : Int)
      else if c = '+' then (atoiDigits rest 0 : Int)
      else (atoiDigits (c :: rest) 0 : Int)

/-- process_ctl_line from the C source, acting on the mode/selected
globals carried in the MuxState. -/
def process_ctl_line (s : MuxState) (line : List Char) : MuxState :=
  let cs := trimTrailing (trimLeading line)
  if cs = [] then s
  else if startsWith (("source ").toList) cs then
    let n := atoi (cs.drop 7)
    if 0 ≤ n ∧ n < (s.num_inputs : Int) then
      { s with mode := MuxMode.MODE_SOURCE, selected := n }
    else s
  else if cs = (("testcard").toList) then
    { s with mode := MuxMode.MODE_TESTCARD, selected := -1 }
  else if cs = (("auto").toList) then
    { s with mode := MuxMode.MODE_AUTO, selected := -1 }
  else s

/-- The mode/selected invariant of C9: a SOURCE mode always carries an
in-range index, and AUTO/TESTCARD modes carry −1. -/
def muxInv (s : MuxState) : Prop :=
  (s.mode = MuxMode.MODE_SOURCE →
    0 ≤ s.selected ∧ s.selected < (s.num_inputs : Int)) ∧
  ((s.mode = MuxMode.MODE_AUTO ∨ s.mode = MuxMode.MODE_TESTCARD) →
    s.selected = -1)

/-! ## Input accumulation (the read loop of drain)

Each iteration of drain's read loop computes the free space
READ_BUF_SIZE − read_used; when it is zero the oldest half of the
buffer is discarded (memmove of the upper half down) before reading,
and the read then appends at most the free space.  accumStep models one
iteration, with `chunk` the bytes the producer has available: the read
consumes at most the free space of the (possibly compacted) buffer. -/

/-- One accumulate step of drain: compact when full, then append at
most the remaining capacity. -/
def accumStep (buf chunk : List Nat) : List Nat :=
  if READ_BUF_SIZE - buf.length = 0 then
    buf.drop (READ_BUF_SIZE / 2) ++
      chunk.take (READ_BUF_SIZE - (buf.drop (READ_BUF_SIZE / 2)).length)
  else buf ++ chunk.take (READ_BUF_SIZE - buf.length)

/-! ## Output sink and exit path (write_stdout, main)

write_stdout loops until all len bytes are written.  A write returning
a would-block error polls stdout for up to 200 ms and retries on
success; a failed or timed-out poll, a zero-byte write, or any other
write error makes write_stdout return 0 (failure).  The syscall
outcomes are modelled as a script of events; `none` means the script
ran out before the loop finished.  In main, a write_stdout failure and
a delivered SIGINT/SIGTERM both clear `running`; the loop then exits
into the same cleanup, and main returns 0 in both cases. -/

/-- One observed outcome of the write/poll syscalls in write_stdout's
loop: a write returning n ≥ 0 bytes, a would-block with the subsequent
poll's success, or any other write error. -/
inductive WEv
  | wrote (n : Nat)
  | eagain (ready : Bool)
  | errOther
deriving DecidableEq, Repr

/-- The retry loop of write_stdout (the C write never returns more than
requested, so a script overshooting `len` simply finishes the loop). -/
def writeLoop (len : Nat) : Nat → List WEv → Option Bool
  | total, evs =>
      if len ≤ total then some true
      else
        match evs with
        | [] => none
        | WEv.wrote n :: rest =>
            if n = 0 then some false else writeLoop len (total + n) rest
        | WEv.eagain ready :: rest =>
            if ready then writeLoop len total rest else some false
        | WEv.errOther :: _ => some false

/-- write_stdout from the C source: attempt to write all len bytes
against the given script of syscall outcomes; some true ⟺ returns 1,
some false ⟺ returns 0. -/
def write_stdout (len : Nat) (evs : List WEv) : Option Bool :=
  writeLoop len 0 evs

/-- Why the main loop stopped: an external interrupt (SIGINT/SIGTERM
set running = 0) or a write_stdout failure (main sets running = 0). -/
inductive StopCause
  | interrupt
  | sinkFailure
deriving DecidableEq, Repr

/-- The exit status of main for each stop cause: both paths leave the
loop, run the same cleanup, and reach `return 0` (the C main has no
other return after startup), so the status is 0 regardless of cause. -/
def main_exit_status : StopCause → Nat :=
  fun _ => 0

theorem jpegScan_eq_lastValidFrame (M : Nat) (l : List Nat) (pos : Nat)
    (m : ScanMode) :
    ∀ best, jpegScan M l pos m best =
      lastValidFrame M (framesScan l pos m) best := by
  induction l, pos, m using framesScan.induct with
  | case1 a b rest pos h ih =>
      intro best
      simp only [jpegScan, framesScan, if_pos h, lastValidFrame]
      exact ih best
  | case2 a b rest pos h ih =>
      intro best
      simp only [jpegScan, framesScan, if_neg h]
      exact ih best
  | case3 a b rest j start h ih =>
      intro best
      simp only [jpegScan, framesScan, if_pos h, lastValidFrame]
      exact ih _
  | case4 a b rest j start h ih =>
      intro best
      simp only [jpegScan, framesScan, if_neg h]
      exact ih best
  | case5 l pos m h1 h2 =>
      intro best
      rcases l with _ | ⟨a, _ | ⟨b, rest⟩⟩
      · cases m <;> rfl
      · cases m <;> rfl
      · cases m with
        | seekSOI => exact (h1 a b rest rfl rfl).elim
        | seekEOI s => exact (h2 a b rest s rfl rfl).elim

theorem framesScan_bounds (l : List Nat) (pos : Nat) (m : ScanMode) :
    modeOK m pos → ∀ p ∈ framesScan l pos m,
      minStart m pos ≤ p.1 ∧ p.1 + p.2 ≤ pos + l.length ∧ 4 ≤ p.2 := by
  induction l, pos, m using framesScan.induct with
  | case1 a b rest pos h ih =>
      intro _ p hp
      simp only [framesScan, if_pos h] at hp
      have hok : modeOK (ScanMode.seekEOI pos) (pos + 2) := by
        simp [modeOK]
      obtain ⟨h1, h2, h3⟩ := ih hok p hp
      simp only [minStart] at h1 ⊢
      simp only [List.length_cons]
      omega
  | case2 a b rest pos h ih =>
      intro _ p hp
      simp only [framesScan, if_neg h] at hp
      obtain ⟨h1, h2, h3⟩ := ih trivial p hp
      simp only [minStart] at h1 ⊢
      simp only [List.length_cons] at h2 ⊢
      omega
  | case3 a b rest j start h ih =>
      intro hok p hp
      simp only [modeOK] at hok
      simp only [framesScan, if_pos h] at hp
      rcases List.mem_cons.mp hp with rfl | hp'
      · simp only [minStart, List.length_cons]
        omega
      · obtain ⟨h1, h2, h3⟩ := ih trivial p hp'
        simp only [minStart] at h1 ⊢
        simp only [List.length_cons] at h2 ⊢
        omega
  | case4 a b rest j start h ih =>
      intro hok p hp
      simp only [modeOK] at hok
      simp only [framesScan, if_neg h] at hp
      have hok' : modeOK (ScanMode.seekEOI start) (j + 1) := by
        simp only [modeOK]; omega
      obtain ⟨h1, h2, h3⟩ := ih hok' p hp
      simp only [minStart] at h1 ⊢
      simp only [List.length_cons] at h2 ⊢
      omega
  | case5 l pos m h1 h2 =>
      intro _ p hp
      rcases l with _ | ⟨a, _ | ⟨b, rest⟩⟩
      · cases m <;> simp only [framesScan, List.not_mem_nil] at hp
      · cases m <;> simp only [framesScan, List.not_mem_nil] at hp
      · cases m with
        | seekSOI => exact (h1 a b rest rfl rfl).elim
        | seekEOI s => exact (h2 a b rest s rfl rfl).elim

theorem framesScan_sorted (l : List Nat) (pos : Nat) (m : ScanMode) :
    modeOK m pos →
      (framesScan l pos m).Pairwise (fun p q => p.1 + p.2 ≤ q.1) := by
  induction l, pos, m using framesScan.induct with
  | case1 a b rest pos h ih =>
      intro _
      simp only [framesScan, if_pos h]
      exact ih (by simp [modeOK])
  | case2 a b rest pos h ih =>
      intro _
      simp only [framesScan, if_neg h]
      exact ih trivial
  | case3 a b rest j start h ih =>
      intro hok
      simp only [modeOK] at hok
      simp only [framesScan, if_pos h]
      refine List.pairwise_cons.mpr ⟨?_, ih trivial⟩
      intro q hq
      obtain ⟨h1, _, _⟩ := framesScan_bounds rest (j + 2) ScanMode.seekSOI
        trivial q hq
      simp only [minStart] at h1
      omega
  | case4 a b rest j start h ih =>
      intro hok
      simp only [modeOK] at hok
      simp only [framesScan, if_neg h]
      exact ih (by simp only [modeOK]; omega)
  | case5 l pos m h1 h2 =>
      intro _
      rcases l with _ | ⟨a, _ | ⟨b, rest⟩⟩
      · cases m <;> exact List.Pairwise.nil
      · cases m <;> exact List.Pairwise.nil
      · cases m with
        | seekSOI => exact (h1 a b rest rfl rfl).elim
        | seekEOI s => exact (h2 a b rest s rfl rfl).elim

theorem lastValidFrame_filter_nil (M : Nat) (ys : List (Nat × Nat))
    (h : ys.filter (fun p => decide (p.2 ≤ M)) = []) (b : Option (Nat × Nat)) :
    lastValidFrame M ys b = b := by
  induction ys generalizing b with
  | nil => rfl
  | cons f rest ih =>
      rw [List.filter_cons] at h
      by_cases hf : f.2 ≤ M
      · simp [hf] at h
      · simp only [lastValidFrame, if_neg hf]
        exact ih (by simpa [hf] using h) b

theorem lastValidFrame_filter_ne (M : Nat) (ys : List (Nat × Nat))
    (h : ys.filter (fun p => decide (p.2 ≤ M)) ≠ []) (b : Option (Nat × Nat)) :
    lastValidFrame M ys b =
      (ys.filter (fun p => decide (p.2 ≤ M))).getLast? := by
  induction ys generalizing b with
  | nil => simp at h
  | cons f rest ih =>
      by_cases hf : f.2 ≤ M
      · simp only [lastValidFrame, if_pos hf]
        rw [List.filter_cons, if_pos (by simpa using hf)]
        by_cases hrest : rest.filter (fun p => decide (p.2 ≤ M)) = []
        · rw [lastValidFrame_filter_nil M rest hrest, hrest]
          rfl
        · rw [ih hrest (some f)]
          cases hfr : rest.filter (fun p => decide (p.2 ≤ M)) with
          | nil => exact absurd hfr hrest
          | cons g t => rw [List.getLast?_cons_cons]
      · simp only [lastValidFrame, if_neg hf]
        rw [List.filter_cons, if_neg (by simpa using hf)]
        refine ih ?_ b
        intro hc
        apply h
        rw [List.filter_cons, if_neg (by simpa using hf)]
        exact hc

theorem lastValidFrame_append (M : Nat) (xs ys : List (Nat × Nat))
    (b : Option (Nat × Nat)) :
    lastValidFrame M (xs ++ ys) b =
      lastValidFrame M ys (lastValidFrame M xs b) := by
  induction xs generalizing b with
  | nil => rfl
  | cons f rest ih =>
      simp only [List.cons_append, lastValidFrame]
      exact ih _

theorem lastValidFrame_eq_some (M : Nat) (ys : List (Nat × Nat))
    (b : Option (Nat × Nat)) (q : Nat × Nat)
    (h : lastValidFrame M ys b = some q) :
    (q ∈ ys ∧ q.2 ≤ M) ∨ b = some q := by
  induction ys generalizing b with
  | nil => right; exact h
  | cons f rest ih =>
      simp only [lastValidFrame] at h
      rcases ih _ h with ⟨hmem, hle⟩ | heq
      · exact Or.inl ⟨List.mem_cons_of_mem _ hmem, hle⟩
      · by_cases hf : f.2 ≤ M
        · rw [if_pos hf] at heq
          obtain rfl : f = q := Option.some.inj heq
          exact Or.inl ⟨List.mem_cons_self _ _, hf⟩
        · rw [if_neg hf] at heq
          exact Or.inr heq

theorem pairwise_rel_getLast {α : Type} {R : α → α → Prop} (l : List α)
    (q : α) (hpw : l.Pairwise R) (hq : l.getLast? = some q) :
    ∀ p ∈ l, p = q ∨ R p q := by
  induction l with
  | nil => simp at hq
  | cons a t ih =>
      rcases t with _ | ⟨b, t'⟩
      · intro p hp
        obtain rfl : a = q := by simpa using hq
        obtain rfl : p = a := by simpa using hp
        exact Or.inl rfl
      · rw [List.getLast?_cons_cons] at hq
        intro p hp
        rcases List.mem_cons.mp hp with rfl | hp'
        · right
          have hqmem : q ∈ b :: t' := by
            obtain ⟨hne, hqe⟩ := List.mem_getLast?_eq_getLast
              (Option.mem_def.mpr hq)
            exact hqe ▸ List.getLast_mem hne
          exact (List.pairwise_cons.mp hpw).1 q hqmem
        · exact ih hpw.of_cons hq p hp'

/-- C1: for every byte buffer containing at least two complete delimited
frames (SOI 0xFFD8 … EOI 0xFFD9) that fit the frame-size bound, last_jpeg
returns exactly the last such frame — its offset and length — and never
an earlier one: every other candidate frame p ends at or before the
returned frame's offset. -/
theorem last_jpeg_returns_last_frame (buf : List Nat) (p q : Nat × Nat)
    (h2 : 2 ≤ (validFrames MAX_FRAME_SIZE buf).length)
    (hp : p ∈ validFrames MAX_FRAME_SIZE buf)
    (hq : (validFrames MAX_FRAME_SIZE buf).getLast? = some q) :
    last_jpeg buf = some q ∧ (p ≠ q → p.1 + p.2 ≤ q.1) := by
  have hne : (jpegFrames buf).filter (fun r => decide (r.2 ≤ MAX_FRAME_SIZE))
      ≠ [] := by
    intro hc
    rw [validFrames, hc] at hq
    simp at hq
  have h1 : last_jpeg buf = some q := by
    rw [last_jpeg, jpegScan_eq_lastValidFrame]
    show lastValidFrame MAX_FRAME_SIZE (jpegFrames buf) none = some q
    rw [lastValidFrame_filter_ne _ _ hne]
    exact hq
  refine ⟨h1, ?_⟩
  have hs : (jpegFrames buf).Pairwise (fun r s => r.1 + r.2 ≤ s.1) :=
    framesScan_sorted buf 0 ScanMode.seekSOI trivial
  have hsf : (validFrames MAX_FRAME_SIZE buf).Pairwise
      (fun r s => r.1 + r.2 ≤ s.1) :=
    List.Pairwise.sublist (List.filter_sublist _) hs
  intro hne'
  rcases pairwise_rel_getLast _ q hsf hq p hp with rfl | hrel
  · exact absurd rfl hne'
  · exact hrel

/-- C1 witness: a buffer holding two complete frames; last_jpeg returns
the second one, at offset 4. -/
theorem last_jpeg_returns_last_frame_witness :
    last_jpeg [255, 216, 255, 217, 255, 216, 255, 217] = some (4, 4) ∧
      (((0 : Nat), (4 : Nat)) ≠ ((4 : Nat), (4 : Nat)) → 0 + 4 ≤ 4) :=
  last_jpeg_returns_last_frame [255, 216, 255, 217, 255, 216, 255, 217]
    (0, 4) (4, 4) (by decide) (by decide) (by decide)

/-- C2: if the scan's frame list splits as l₁ ++ ov :: l₂ with ov larger
than the size bound M, and a valid-size frame occurs in l₂ (its filtered
list has last element q), then the extractor skips ov and returns q —
a frame lying strictly past the oversized region.  Instantiating
M = MAX_FRAME_SIZE gives the statement for last_jpeg itself. -/
theorem oversized_frame_skipped (M : Nat) (buf : List Nat)
    (l₁ l₂ : List (Nat × Nat)) (ov q : Nat × Nat)
    (hsplit : jpegFrames buf = l₁ ++ ov :: l₂)
    (hov : M < ov.2)
    (hq : (l₂.filter (fun r => decide (r.2 ≤ M))).getLast? = some q) :
    jpegScan M buf 0 ScanMode.seekSOI none = some q ∧ ov.1 + ov.2 ≤ q.1 ∧
      (M = MAX_FRAME_SIZE → last_jpeg buf = some q) := by
  have hne : l₂.filter (fun r => decide (r.2 ≤ M)) ≠ [] := by
    intro hc
    rw [hc] at hq
    simp at hq
  have h1 : jpegScan M buf 0 ScanMode.seekSOI none = some q := by
    rw [jpegScan_eq_lastValidFrame]
    show lastValidFrame M (framesScan buf 0 ScanMode.seekSOI) none = some q
    rw [show framesScan buf 0 ScanMode.seekSOI = jpegFrames buf from rfl,
      hsplit, lastValidFrame_append]
    show lastValidFrame M (ov :: l₂) _ = some q
    simp only [lastValidFrame, if_neg (not_le.mpr hov)]
    rw [lastValidFrame_filter_ne _ _ hne]
    exact hq
  have hqmem : q ∈ l₂ := by
    have : q ∈ l₂.filter (fun r => decide (r.2 ≤ M)) := by
      obtain ⟨hne', hqe⟩ := List.mem_getLast?_eq_getLast
        (Option.mem_def.mpr hq)
      exact hqe ▸ List.getLast_mem hne'
    exact (List.mem_filter.mp this).1
  have hs : (jpegFrames buf).Pairwise (fun r s => r.1 + r.2 ≤ s.1) :=
    framesScan_sorted buf 0 ScanMode.seekSOI trivial
  rw [hsplit] at hs
  have hov2 : (ov :: l₂).Pairwise (fun r s => r.1 + r.2 ≤ s.1) :=
    List.Pairwise.sublist (List.sublist_append_right l₁ (ov :: l₂)) hs
  refine ⟨h1, List.rel_of_pairwise_cons hov2 hqmem, ?_⟩
  intro hM
  rw [last_jpeg, ← hM]
  exact h1

/-- C2 witness: with size bound 4, the first region (length 5) is
oversized and skipped; the later 4-byte frame at offset 5 is returned. -/
theorem oversized_frame_skipped_witness :
    jpegScan 4 [255, 216, 0, 255, 217, 255, 216, 255, 217] 0
        ScanMode.seekSOI none = some (5, 4) ∧
      0 + 5 ≤ 5 ∧
      (4 = MAX_FRAME_SIZE →
        last_jpeg [255, 216, 0, 255, 217, 255, 216, 255, 217] =
          some (5, 4)) :=
  oversized_frame_skipped 4 [255, 216, 0, 255, 217, 255, 216, 255, 217]
    [] [(5, 4)] (0, 5) (5, 4) (by decide) (by decide) (by decide)

/-- C10: any region reported by last_jpeg fits the MAX_FRAME_SIZE bound
and lies entirely inside the buffer, so the memcpy of that region into
the fixed-size frame cache in drain stays in bounds: the copied byte
list has length len ≤ MAX_FRAME_SIZE. -/
theorem last_jpeg_region_in_bounds (buf : List Nat) (o len : Nat)
    (h : last_jpeg buf = some (o, len)) :
    len ≤ MAX_FRAME_SIZE ∧ o + len ≤ buf.length ∧
      ((buf.drop o).take len).length = len := by
  rw [last_jpeg, jpegScan_eq_lastValidFrame] at h
  rcases lastValidFrame_eq_some _ _ _ _ h with ⟨hmem, hle⟩ | hnone
  · obtain ⟨_, hbound, _⟩ := framesScan_bounds buf 0 ScanMode.seekSOI
      trivial (o, len) hmem
    refine ⟨hle, by omega, ?_⟩
    simp only [List.length_take, List.length_drop]
    omega
  · exact absurd hnone (by simp)

/-- C10 witness: a minimal complete frame is reported with offset 0 and
length 4, within both bounds. -/
theorem last_jpeg_region_in_bounds_witness :
    4 ≤ MAX_FRAME_SIZE ∧ 0 + 4 ≤ [255, 216, 255, 217].length ∧
      (([255, 216, 255, 217].drop 0).take 4).length = 4 :=
  last_jpeg_region_in_bounds [255, 216, 255, 217] 0 4 (by decide)

theorem use_testcard_ne_input (s : MuxState) (j len : Nat) :
    use_testcard s ≠ some (FrameSrc.input j, len) := by
  rw [use_testcard]
  split <;> intro hc <;> simp at hc

theorem autoScan_none (inputs : List Input) (now : Timespec) (t : Int)
    (k : Nat) (h : ∀ inp ∈ inputs, isFresh inp now t = false) :
    autoScan inputs now t k = none := by
  induction k with
  | zero => rfl
  | succ i ih =>
      rw [autoScan]
      cases hg : inputs.get? i with
      | none => exact ih
      | some inp =>
          dsimp only
          rw [h inp (List.get?_mem hg)]
          simpa using ih

theorem autoScan_finds_highest (inputs : List Input) (now : Timespec)
    (t : Int) (k i : Nat) (inp : Input) (hik : i < k)
    (hget : inputs.get? i = some inp)
    (hfresh : isFresh inp now t = true)
    (habove : ∀ j inp', i < j → inputs.get? j = some inp' →
      isFresh inp' now t = false) :
    autoScan inputs now t k = some (FrameSrc.input i, inp.frame_size) := by
  induction k with
  | zero => omega
  | succ m ih =>
      rw [autoScan]
      rcases Nat.lt_succ_iff_lt_or_eq.mp hik with him | rfl
      · cases hg : inputs.get? m with
        | none => exact ih him
        | some inp' =>
            dsimp only
            rw [habove m inp' him hg]
            simpa using ih him
      · rw [hget]
        dsimp only
        rw [hfresh]
        simp

theorem elapsed_ms_eq_div (a b : Timespec) :
    elapsed_ms a b =
      (((b.tv_sec - a.tv_sec) * 1000000000 + (b.tv_nsec - a.tv_nsec) : ℤ) : ℚ)
        / 1000000 := by
  rw [elapsed_ms]
  push_cast
  field_simp
  ring

theorem elapsed_ms_lt_iff (a b : Timespec) (t : Int) :
    (elapsed_ms a b < (t : ℚ)) ↔
      (b.tv_sec - a.tv_sec) * 1000000000 + (b.tv_nsec - a.tv_nsec) <
        t * 1000000 := by
  rw [elapsed_ms_eq_div, div_lt_iff (by norm_num : (0 : ℚ) < 1000000)]
  exact_mod_cast Iff.rfl

theorem le_elapsed_ms_iff (a b : Timespec) (t : Int) :
    ((t : ℚ) ≤ elapsed_ms a b) ↔
      t * 1000000 ≤
        (b.tv_sec - a.tv_sec) * 1000000000 + (b.tv_nsec - a.tv_nsec) := by
  rw [elapsed_ms_eq_div, le_div_iff (by norm_num : (0 : ℚ) < 1000000)]
  exact_mod_cast Iff.rfl

theorem isFresh_eq_int (inp : Input) (now : Timespec) (t : Int) :
    isFresh inp now t =
      (decide (0 < inp.frame_size) &&
        decide ((now.tv_sec - inp.frame_time.tv_sec) * 1000000000 +
          (now.tv_nsec - inp.frame_time.tv_nsec) < t * 1000000)) := by
  rw [isFresh, decide_eq_decide.mpr (elapsed_ms_lt_iff inp.frame_time now t)]

theorem choose_frame_source (s : MuxState) (now : Timespec) (i : Nat)
    (inp : Input)
    (hmode : s.mode = MuxMode.MODE_SOURCE)
    (hsel : s.selected = (i : Int))
    (hi : i < s.num_inputs)
    (hget : s.inputs.get? i = some inp) :
    choose_frame s now =
      if isFresh inp now s.timeout_ms then
        some (FrameSrc.input i, inp.frame_size)
      else use_testcard s := by
  have hc2 : s.mode = MuxMode.MODE_SOURCE ∧ 0 ≤ s.selected ∧
      s.selected < (s.num_inputs : Int) := by
    refine ⟨hmode, ?_, ?_⟩ <;> rw [hsel]
    · exact Int.natCast_nonneg i
    · exact_mod_cast hi
  have htn : s.selected.toNat = i := by
    rw [hsel]
    exact Int.toNat_natCast i
  rw [choose_frame, if_neg (by simp [hmode]), if_pos hc2, htn, hget]

theorem choose_frame_auto (s : MuxState) (now : Timespec)
    (hmode : s.mode = MuxMode.MODE_AUTO) :
    choose_frame s now =
      match autoScan s.inputs now s.timeout_ms s.num_inputs with
      | some r => some r
      | none => use_testcard s := by
  rw [choose_frame, if_neg (by simp [hmode]), if_neg (by simp [hmode])]

/-- C3: in MODE_SOURCE with a valid selected index i whose cached frame
is absent (size 0) or stale (elapsed ≥ timeout), choose_frame returns
the use_testcard result (testcard frame, or none when no testcard is
loaded), and never a frame from any input index — in particular not
from any other input, however fresh. -/
theorem fixed_stale_falls_back (s : MuxState) (now : Timespec)
    (i j len : Nat) (inp : Input)
    (hmode : s.mode = MuxMode.MODE_SOURCE)
    (hsel : s.selected = (i : Int))
    (hi : i < s.num_inputs)
    (hget : s.inputs.get? i = some inp)
    (hstale : inp.frame_size = 0 ∨
      (s.timeout_ms : ℚ) ≤ elapsed_ms inp.frame_time now) :
    choose_frame s now = use_testcard s ∧
      choose_frame s now ≠ some (FrameSrc.input j, len) := by
  have hfresh : isFresh inp now s.timeout_ms = false := by
    rw [isFresh]
    rcases hstale with h0 | hst
    · simp [h0]
    · simp [not_lt.mpr hst]
  have heq : choose_frame s now = use_testcard s := by
    rw [choose_frame_source s now i inp hmode hsel hi hget, hfresh]
    simp
  exact ⟨heq, fun hc => use_testcard_ne_input s j len (heq ▸ hc)⟩

/-- C3 witness: input 0 is selected and stale (captured 1 s ago with a
500 ms timeout) while input 1 is fresh; the testcard is returned, not
input 1's frame. -/
theorem fixed_stale_falls_back_witness :
    choose_frame
        (⟨MuxMode.MODE_SOURCE, 0, 2,
          [⟨[9], 1, ⟨0, 0⟩⟩, ⟨[8], 1, ⟨1, 0⟩⟩],
          some [7], 1, 500⟩ : MuxState) ⟨1, 0⟩ =
      use_testcard
        (⟨MuxMode.MODE_SOURCE, 0, 2,
          [⟨[9], 1, ⟨0, 0⟩⟩, ⟨[8], 1, ⟨1, 0⟩⟩],
          some [7], 1, 500⟩ : MuxState) ∧
    choose_frame
        (⟨MuxMode.MODE_SOURCE, 0, 2,
          [⟨[9], 1, ⟨0, 0⟩⟩, ⟨[8], 1, ⟨1, 0⟩⟩],
          some [7], 1, 500⟩ : MuxState) ⟨1, 0⟩ ≠
      some (FrameSrc.input 1, 1) :=
  fixed_stale_falls_back _ ⟨1, 0⟩ 0 1 1 ⟨[9], 1, ⟨0, 0⟩⟩ rfl rfl
    (by decide) (by decide)
    (Or.inr ((le_elapsed_ms_iff ⟨0, 0⟩ ⟨1, 0⟩ 500).mpr (by decide)))

/-- C4: in MODE_AUTO choose_frame scans inputs from the highest index
down: if every input is stale it falls back to the testcard, and if
input i is fresh while every input above i is stale, input i's frame is
returned.  The claim's concrete instances ([stale, fresh, fresh] picks
input 2, [fresh, stale, stale] picks input 0, all-stale picks fallback)
are instances of the two conjuncts. -/
theorem auto_highest_fresh_wins (s : MuxState) (now : Timespec) (i : Nat)
    (inp : Input)
    (hmode : s.mode = MuxMode.MODE_AUTO)
    (hlen : s.inputs.length = s.num_inputs)
    (hget : s.inputs.get? i = some inp) :
    ((∀ inp' ∈ s.inputs, isFresh inp' now s.timeout_ms = false) →
      choose_frame s now = use_testcard s) ∧
    (isFresh inp now s.timeout_ms = true →
      (∀ inp' ∈ s.inputs.drop (i + 1), isFresh inp' now s.timeout_ms = false) →
      choose_frame s now = some (FrameSrc.input i, inp.frame_size)) := by
  constructor
  · intro hall
    rw [choose_frame_auto s now hmode,
      autoScan_none s.inputs now s.timeout_ms s.num_inputs hall]
  · intro hfresh habove
    have hik : i < s.num_inputs := by
      rw [← hlen]
      exact List.get?_eq_some.mp hget |>.1
    have habove' : ∀ j inp', i < j → s.inputs.get? j = some inp' →
        isFresh inp' now s.timeout_ms = false := by
      intro j inp' hij hgj
      apply habove
      have hj : j = i + 1 + (j - (i + 1)) := by omega
      have : (s.inputs.drop (i + 1)).get? (j - (i + 1)) = some inp' := by
        rw [List.get?_drop, ← hj, hgj]
      exact List.get?_mem this
    rw [choose_frame_auto s now hmode,
      autoScan_finds_highest s.inputs now s.timeout_ms s.num_inputs i inp
        hik hget hfresh habove']

/-- C4 witness: inputs [stale, fresh, fresh] under a 500 ms timeout;
the auto scan returns input 2's frame. -/
theorem auto_highest_fresh_wins_witness :
    choose_frame
        (⟨MuxMode.MODE_AUTO, -1, 3,
          [⟨[9], 1, ⟨0, 0⟩⟩, ⟨[8], 2, ⟨1, 0⟩⟩, ⟨[7], 3, ⟨1, 0⟩⟩],
          some [7], 1, 500⟩ : MuxState) ⟨1, 0⟩ =
      some (FrameSrc.input 2, 3) :=
  (auto_highest_fresh_wins _ ⟨1, 0⟩ 2 ⟨[7], 3, ⟨1, 0⟩⟩ rfl (by decide)
      (by decide)).2
    (by simp only [isFresh_eq_int]; decide)
    (by simp only [isFresh_eq_int]; decide)

/-- C5: with a cached frame present (size > 0) at the selected index,
the frame is chosen exactly when elapsed < timeout and the selection
falls back to the testcard exactly when elapsed ≥ timeout: the
threshold boundary itself counts as stale. -/
theorem staleness_threshold_boundary (s : MuxState) (now : Timespec)
    (i : Nat) (inp : Input)
    (hmode : s.mode = MuxMode.MODE_SOURCE)
    (hsel : s.selected = (i : Int))
    (hi : i < s.num_inputs)
    (hget : s.inputs.get? i = some inp)
    (hsz : 0 < inp.frame_size) :
    (elapsed_ms inp.frame_time now < (s.timeout_ms : ℚ) →
      choose_frame s now = some (FrameSrc.input i, inp.frame_size)) ∧
    ((s.timeout_ms : ℚ) ≤ elapsed_ms inp.frame_time now →
      choose_frame s now = use_testcard s) ∧
    use_testcard s ≠ some (FrameSrc.input i, inp.frame_size) := by
  refine ⟨?_, ?_, use_testcard_ne_input s i inp.frame_size⟩
  · intro hlt
    have hfresh : isFresh inp now s.timeout_ms = true := by
      rw [isFresh]
      simp [hsz, hlt]
    rw [choose_frame_source s now i inp hmode hsel hi hget, hfresh]
    simp
  · intro hge
    have hfresh : isFresh inp now s.timeout_ms = false := by
      rw [isFresh]
      simp [not_lt.mpr hge]
    rw [choose_frame_source s now i inp hmode hsel hi hget, hfresh]
    simp

/-- C5 witness: elapsed time exactly equal to the 500 ms threshold
(0.5 s in nanoseconds) is already stale: the testcard is chosen. -/
theorem staleness_threshold_boundary_witness :
    choose_frame
        (⟨MuxMode.MODE_SOURCE, 0, 1, [⟨[9], 1, ⟨0, 0⟩⟩],
          some [7], 1, 500⟩ : MuxState) ⟨0, 500000000⟩ =
      use_testcard
        (⟨MuxMode.MODE_SOURCE, 0, 1, [⟨[9], 1, ⟨0, 0⟩⟩],
          some [7], 1, 500⟩ : MuxState) :=
  (staleness_threshold_boundary _ ⟨0, 500000000⟩ 0 ⟨[9], 1, ⟨0, 0⟩⟩ rfl rfl
      (by decide) (by decide) (by decide)).2.1
    ((le_elapsed_ms_iff ⟨0, 0⟩ ⟨0, 500000000⟩ 500).mpr (by decide))

/-- C6 counterexample: the claim says any line other than the fixed
grammar ("source <int>", "testcard", "auto") yields no command and no
state change, but the line "source x" — not of the form source <int> —
switches a 3-input mux from auto to source 0, because atoi parses the
digit-free remainder as 0, which is in range. -/
theorem ctl_line_lenient_counterexample :
    process_ctl_line
        (⟨MuxMode.MODE_AUTO, -1, 3, [], none, 0, 500⟩ : MuxState)
        (("source x").toList) =
      (⟨MuxMode.MODE_SOURCE, 0, 3, [], none, 0, 500⟩ : MuxState) ∧
    process_ctl_line
        (⟨MuxMode.MODE_AUTO, -1, 3, [], none, 0, 500⟩ : MuxState)
        (("source x").toList) ≠
      (⟨MuxMode.MODE_AUTO, -1, 3, [], none, 0, 500⟩ : MuxState) := by
  constructor <;> decide

theorem char_digit_facts (c : Char) (h : c.isDigit = true) :
    (c == '\n' || c == '\r' || c == ' ') = false ∧ c_isspace c = false ∧
      c ≠ '-' ∧ c ≠ '+' := by
  have hne : ∀ x : Char, x.isDigit = false → c ≠ x := by
    intro x hx hcx
    subst hcx
    rw [h] at hx
    cases hx
  refine ⟨?_, ?_, hne _ (by decide), hne _ (by decide)⟩
  · simp only [Bool.or_eq_false_iff, beq_eq_false_iff_ne]
    exact ⟨⟨hne _ (by decide), hne _ (by decide)⟩, hne _ (by decide)⟩
  · rw [c_isspace]
    simp only [Bool.or_eq_false_iff, beq_eq_false_iff_ne]
    exact ⟨⟨⟨⟨⟨hne _ (by decide), hne _ (by decide)⟩, hne _ (by decide)⟩,
      hne _ (by decide)⟩, hne _ (by decide)⟩, hne _ (by decide)⟩

theorem startsWith_append (ps rest : List Char) :
    startsWith ps (ps ++ rest) = true := by
  induction ps with
  | nil => rfl
  | cons c ps ih =>
      rw [List.cons_append, startsWith, beq_self_eq_true]
      simpa using ih

theorem trimTrailing_eq_self (l : List Char)
    (h : ∀ c, l.getLast? = some c →
      (c == '\n' || c == '\r' || c == ' ') = false) :
    trimTrailing l = l := by
  rcases List.eq_nil_or_concat l with rfl | ⟨l', a, rfl⟩
  · rfl
  · rw [List.concat_eq_append] at h ⊢
    rw [trimTrailing, List.reverse_append, List.reverse_cons,
      List.reverse_nil, List.nil_append, List.singleton_append,
      List.dropWhile_cons, h a (List.getLast?_concat l'),
      if_neg (by simp), List.reverse_cons, List.reverse_reverse]

theorem atoi_of_digits (ds : List Char) (hne : ds ≠ [])
    (hdig : ∀ c ∈ ds, c.isDigit = true) :
    atoi ds = (atoiDigits ds 0 : Int) := by
  obtain ⟨d, rest, rfl⟩ : ∃ d rest, ds = d :: rest := by
    cases ds with
    | nil => exact absurd rfl hne
    | cons d rest => exact ⟨d, rest, rfl⟩
  obtain ⟨-, hsp, hminus, hplus⟩ :=
    char_digit_facts d (hdig d (List.mem_cons_self _ _))
  rw [atoi, List.dropWhile_cons, hsp, if_neg (by simp)]
  dsimp only
  rw [if_neg hminus, if_neg hplus]

/-- C6 amended: writing cs for the line after skipping leading
spaces/tabs and stripping trailing newline/CR/space characters
(trailing tabs are not trimmed), the parser behaves as follows for
every control line: if cs starts with "source ", the remainder is
parsed by C atoi — an in-range result selects that source and anything
else changes nothing; in particular, for every nonempty digit string d,
"source " ++ d selects source value(d) when in range and is a no-op
when out of range, while a digit-free remainder such as in "source x"
parses as 0 and selects source 0; if cs is exactly "testcard" or
exactly "auto" the corresponding mode is selected; every other line —
cs empty, or matching none of the three heads — changes nothing.  The
concrete conjuncts record the particulars: "source x" selects source 0,
"  auto  \r\n" selects auto, and "auto\t" is unrecognized. -/
theorem ctl_line_grammar (s : MuxState) (line ds : List Char) :
    (startsWith (("source ").toList) (trimTrailing (trimLeading line)) =
        false →
      trimTrailing (trimLeading line) ≠ ("testcard").toList →
      trimTrailing (trimLeading line) ≠ ("auto").toList →
      process_ctl_line s line = s) ∧
    (trimTrailing (trimLeading line) = ("testcard").toList →
      process_ctl_line s line =
        { s with mode := MuxMode.MODE_TESTCARD, selected := -1 }) ∧
    (trimTrailing (trimLeading line) = ("auto").toList →
      process_ctl_line s line =
        { s with mode := MuxMode.MODE_AUTO, selected := -1 }) ∧
    (startsWith (("source ").toList) (trimTrailing (trimLeading line)) =
        true →
      (0 ≤ atoi ((trimTrailing (trimLeading line)).drop 7) ∧
          atoi ((trimTrailing (trimLeading line)).drop 7) <
            (s.num_inputs : Int) →
        process_ctl_line s line =
          { s with
              mode := MuxMode.MODE_SOURCE,
              selected := atoi ((trimTrailing (trimLeading line)).drop 7) }) ∧
      (¬ (0 ≤ atoi ((trimTrailing (trimLeading line)).drop 7) ∧
          atoi ((trimTrailing (trimLeading line)).drop 7) <
            (s.num_inputs : Int)) →
        process_ctl_line s line = s)) ∧
    (ds ≠ [] → (∀ c ∈ ds, c.isDigit = true) →
      (atoiDigits ds 0 < s.num_inputs →
        process_ctl_line s ((("source ").toList) ++ ds) =
          { s with
              mode := MuxMode.MODE_SOURCE,
              selected := (atoiDigits ds 0 : Int) }) ∧
      (s.num_inputs ≤ atoiDigits ds 0 →
        process_ctl_line s ((("source ").toList) ++ ds) = s)) ∧
    (0 < s.num_inputs →
      process_ctl_line s (("source x").toList) =
        { s with mode := MuxMode.MODE_SOURCE, selected := 0 }) ∧
    process_ctl_line s (("  auto  \r\n").toList) =
      { s with mode := MuxMode.MODE_AUTO, selected := -1 } ∧
    process_ctl_line s (("auto\t").toList) = s := by
  refine ⟨?_, ?_, ?_, ?_, ?_, ?_, by rfl, by rfl⟩
  · intro h1 h2 h3
    rw [process_ctl_line]
    split
    · rfl
    · rw [if_neg (show ¬ (startsWith (("source ").toList)
          (trimTrailing (trimLeading line)) = true) by rw [h1]; decide)]
  · intro h
    rw [process_ctl_line, if_neg (by rw [h]; decide),
      if_neg (by rw [h]; decide), if_pos h]
  · intro h
    rw [process_ctl_line, if_neg (by rw [h]; decide),
      if_neg (by rw [h]; decide), if_neg (by rw [h]; decide), if_pos h]
  · intro hs
    have hcs : trimTrailing (trimLeading line) ≠ [] := by
      intro hc
      rw [hc] at hs
      exact absurd hs (by decide)
    constructor
    · intro hr
      rw [process_ctl_line, if_neg hcs, if_pos hs]
      dsimp only
      rw [if_pos hr]
    · intro hr
      rw [process_ctl_line, if_neg hcs, if_pos hs]
      dsimp only
      rw [if_neg hr]
  · intro hne hdig
    have htrimL : trimLeading ((("source ").toList) ++ ds) =
        (("source ").toList) ++ ds := rfl
    have htrimT : trimTrailing ((("source ").toList) ++ ds) =
        (("source ").toList) ++ ds := by
      apply trimTrailing_eq_self
      intro c hc
      rw [List.getLast?_append_of_ne_nil _ hne] at hc
      have hmem : c ∈ ds := by
        obtain ⟨h9, he⟩ := List.mem_getLast?_eq_getLast
          (Option.mem_def.mpr hc)
        exact he ▸ List.getLast_mem h9
      exact (char_digit_facts c (hdig c hmem)).1
    have hstarts := startsWith_append (("source ").toList) ds
    have hdrop : (((("source ").toList) ++ ds)).drop 7 = ds := by
      rw [show (7 : Nat) = (("source ").toList).length from rfl,
        List.drop_left]
    have hatoi := atoi_of_digits ds hne hdig
    have hnil : ¬ ((("source ").toList) ++ ds = []) := by simp
    constructor
    · intro hlt
      rw [process_ctl_line, htrimL, htrimT, if_neg hnil, if_pos hstarts]
      dsimp only
      rw [hdrop, hatoi,
        if_pos ⟨Int.natCast_nonneg _, by exact_mod_cast hlt⟩]
    · intro hge
      rw [process_ctl_line, htrimL, htrimT, if_neg hnil, if_pos hstarts]
      dsimp only
      rw [hdrop, hatoi, if_neg]
      rintro ⟨-, hlt⟩
      have : atoiDigits ds 0 < s.num_inputs := by exact_mod_cast hlt
      omega
  · intro h
    show (if (0 : Int) ≤ (0 : Int) ∧ (0 : Int) < (s.num_inputs : Int) then
        { s with mode := MuxMode.MODE_SOURCE, selected := (0 : Int) }
      else s) = _
    rw [if_pos ⟨le_refl _, by exact_mod_cast h⟩]

/-- C6 witness: at a concrete 3-input auto-mode state, the general
digit-string clause applied to the digit string "2" selects source 2,
and the general unrecognized-line clause leaves "bogus" a no-op. -/
theorem ctl_line_grammar_witness :
    process_ctl_line
        (⟨MuxMode.MODE_AUTO, -1, 3, [], none, 0, 500⟩ : MuxState)
        ((("source ").toList) ++ ['2']) =
      (⟨MuxMode.MODE_SOURCE, 2, 3, [], none, 0, 500⟩ : MuxState) ∧
    process_ctl_line
        (⟨MuxMode.MODE_AUTO, -1, 3, [], none, 0, 500⟩ : MuxState)
        (("bogus").toList) =
      (⟨MuxMode.MODE_AUTO, -1, 3, [], none, 0, 500⟩ : MuxState) :=
  ⟨((ctl_line_grammar
        (⟨MuxMode.MODE_AUTO, -1, 3, [], none, 0, 500⟩ : MuxState)
        (("bogus").toList) ['2']).2.2.2.2.1
      (by decide) (by decide)).1 (by decide),
    (ctl_line_grammar
        (⟨MuxMode.MODE_AUTO, -1, 3, [], none, 0, 500⟩ : MuxState)
        (("bogus").toList) ['2']).1
      (by decide) (by decide) (by decide)⟩

/-- C9: the mode/selected invariant — SOURCE mode implies an in-range
index, AUTO/TESTCARD imply −1 — holds for the startup state
(MODE_AUTO, −1), is preserved by every control line, and makes the
MODE_SOURCE branch of choose_frame index a valid input: the selected
index resolves to an actual entry and the result is that input's frame
or the testcard fallback, never an out-of-bounds access. -/
theorem mode_selected_invariant (s : MuxState) (line : List Char)
    (now : Timespec) :
    ((s.mode = MuxMode.MODE_AUTO ∧ s.selected = -1) → muxInv s) ∧
    (muxInv s → muxInv (process_ctl_line s line)) ∧
    (muxInv s → s.mode = MuxMode.MODE_SOURCE →
      s.inputs.length = s.num_inputs →
      ∃ inp, s.inputs.get? s.selected.toNat = some inp ∧
        choose_frame s now =
          if isFresh inp now s.timeout_ms then
            some (FrameSrc.input s.selected.toNat, inp.frame_size)
          else use_testcard s) := by
  refine ⟨?_, ?_, ?_⟩
  · rintro ⟨hm, hsel⟩
    exact ⟨fun hc => absurd (hm ▸ hc) (by simp), fun _ => hsel⟩
  · intro hinv
    rw [process_ctl_line]
    split
    · exact hinv
    split
    · dsimp only
      split
      · rename_i hr
        refine ⟨fun _ => hr, fun hc => ?_⟩
        rcases hc with hc | hc <;> simp at hc
      · exact hinv
    split
    · refine ⟨fun hc => ?_, fun _ => rfl⟩
      simp at hc
    split
    · refine ⟨fun hc => ?_, fun _ => rfl⟩
      simp at hc
    · exact hinv
  · intro hinv hmode hlen
    obtain ⟨hge, hlt⟩ := hinv.1 hmode
    have hidx : s.selected.toNat < s.inputs.length := by
      rw [hlen]
      omega
    have hsel' : s.selected = (s.selected.toNat : Int) :=
      (Int.toNat_of_nonneg hge).symm
    refine ⟨s.inputs.get ⟨s.selected.toNat, hidx⟩, List.get?_eq_get hidx, ?_⟩
    exact choose_frame_source s now s.selected.toNat _ hmode hsel'
      (by omega) (List.get?_eq_get hidx)

/-- C9 witness: a 2-input state in MODE_SOURCE with selected = 1
satisfies the invariant; the Fixed branch indexes input 1 and, being
fresh, returns its frame. -/
theorem mode_selected_invariant_witness :
    choose_frame
        (⟨MuxMode.MODE_SOURCE, 1, 2,
          [⟨[9], 1, ⟨0, 0⟩⟩, ⟨[8], 1, ⟨1, 0⟩⟩],
          some [7], 1, 500⟩ : MuxState) ⟨1, 0⟩ =
      some (FrameSrc.input 1, 1) := by
  obtain ⟨inp, hg, hc⟩ :=
    (mode_selected_invariant
        (⟨MuxMode.MODE_SOURCE, 1, 2,
          [⟨[9], 1, ⟨0, 0⟩⟩, ⟨[8], 1, ⟨1, 0⟩⟩],
          some [7], 1, 500⟩ : MuxState) [] ⟨1, 0⟩).2.2
      ⟨fun _ => ⟨by decide, by decide⟩,
        fun hc => by rcases hc with hc | hc <;> exact absurd hc (by decide)⟩
      rfl (by decide)
  rw [show ((⟨MuxMode.MODE_SOURCE, 1, 2,
      [⟨[9], 1, ⟨0, 0⟩⟩, ⟨[8], 1, ⟨1, 0⟩⟩],
      some [7], 1, 500⟩ : MuxState)).inputs.get?
        ((⟨MuxMode.MODE_SOURCE, 1, 2,
          [⟨[9], 1, ⟨0, 0⟩⟩, ⟨[8], 1, ⟨1, 0⟩⟩],
          some [7], 1, 500⟩ : MuxState)).selected.toNat =
      some (⟨[8], 1, ⟨1, 0⟩⟩ : Input) from rfl] at hg
  injection hg with hinp
  subst hinp
  rw [hc, show isFresh (⟨[8], 1, ⟨1, 0⟩⟩ : Input) ⟨1, 0⟩
      ((⟨MuxMode.MODE_SOURCE, 1, 2,
        [⟨[9], 1, ⟨0, 0⟩⟩, ⟨[8], 1, ⟨1, 0⟩⟩],
        some [7], 1, 500⟩ : MuxState)).timeout_ms = true
    from by simp only [isFresh_eq_int]; decide]
  simp

theorem accumStep_length_le (buf chunk : List Nat)
    (h : buf.length ≤ READ_BUF_SIZE) :
    (accumStep buf chunk).length ≤ READ_BUF_SIZE := by
  rw [accumStep]
  split <;>
    simp only [List.length_append, List.length_take, List.length_drop] <;>
    omega

/-- C7: across any sequence of accumulate steps the buffer never
exceeds READ_BUF_SIZE, and one step is exactly: when the buffer is
full, the oldest half is discarded (the newest half retained) and up to
half a buffer of new bytes appended; otherwise nothing is discarded and
the new bytes are appended up to the free space — the newest bytes are
always retained. -/
theorem accum_buffer_bounded (buf chunk : List Nat)
    (chunks : List (List Nat)) (h : buf.length ≤ READ_BUF_SIZE) :
    (chunks.foldl accumStep buf).length ≤ READ_BUF_SIZE ∧
    (buf.length = READ_BUF_SIZE →
      accumStep buf chunk =
        buf.drop (READ_BUF_SIZE / 2) ++ chunk.take (READ_BUF_SIZE / 2)) ∧
    (buf.length < READ_BUF_SIZE →
      accumStep buf chunk = buf ++ chunk.take (READ_BUF_SIZE - buf.length)) := by
  refine ⟨?_, ?_, ?_⟩
  · induction chunks generalizing buf with
    | nil => exact h
    | cons c cs ih =>
        exact ih (accumStep buf c) (accumStep_length_le buf c h)
  · intro hfull
    rw [accumStep, if_pos (by omega)]
    congr 1
    rw [List.length_drop, hfull]
    norm_num [READ_BUF_SIZE]
  · intro hlt
    rw [accumStep, if_neg (by omega)]

/-- C7 witness: starting from an empty buffer, one step appends the
three offered bytes and the bound holds. -/
theorem accum_buffer_bounded_witness :
    (([[1, 2, 3]] : List (List Nat)).foldl accumStep []).length ≤
      READ_BUF_SIZE ∧
    (List.length ([] : List Nat) = READ_BUF_SIZE →
      accumStep [] [1, 2, 3] =
        ([] : List Nat).drop (READ_BUF_SIZE / 2) ++
          [1, 2, 3].take (READ_BUF_SIZE / 2)) ∧
    (List.length ([] : List Nat) < READ_BUF_SIZE →
      accumStep [] [1, 2, 3] =
        [] ++ [1, 2, 3].take (READ_BUF_SIZE - List.length ([] : List Nat))) :=
  accum_buffer_bounded [] [1, 2, 3] [[1, 2, 3]] (by decide)

/-- C8 counterexample: the claim requires a sink write failure to
produce a non-zero (failure) exit status, distinct from the clean zero
exit of an interrupt; but main returns 0 on the sink-failure path too —
the two stop causes produce the same zero exit status. -/
theorem sink_failure_exit_status_counterexample :
    main_exit_status StopCause.sinkFailure = 0 ∧
    main_exit_status StopCause.sinkFailure =
      main_exit_status StopCause.interrupt :=
  ⟨rfl, rfl⟩

/-- C8 amended: a sink write failure other than would-block (another
errno or a zero-byte write), or a would-block whose poll wait fails or
times out, makes write_stdout report failure, which stops the main loop
just as an external interrupt does; a resolved would-block merely
retries, and a complete write succeeds.  In both stop cases the process
releases resources and exits with status 0 — sink failure is
distinguished only by its diagnostic message, not by the exit
status. -/
theorem write_stdout_failure_modes (len n : Nat) (evs : List WEv) :
    (0 < len → write_stdout len (WEv.errOther :: evs) = some false) ∧
    (0 < len → write_stdout len (WEv.eagain false :: evs) = some false) ∧
    (0 < len → write_stdout len (WEv.wrote 0 :: evs) = some false) ∧
    (0 < len → write_stdout len (WEv.eagain true :: evs) =
      write_stdout len evs) ∧
    (len ≤ n → write_stdout len (WEv.wrote n :: evs) = some true) ∧
    main_exit_status StopCause.sinkFailure = 0 ∧
    main_exit_status StopCause.interrupt = 0 := by
  refine ⟨?_, ?_, ?_, ?_, ?_, rfl, rfl⟩
  · intro hl
    rw [write_stdout, writeLoop, if_neg (by omega)]
  · intro hl
    rw [write_stdout, writeLoop, if_neg (by omega)]
    simp
  · intro hl
    rw [write_stdout, writeLoop, if_neg (by omega)]
    simp
  · intro hl
    rw [write_stdout, writeLoop, if_neg (by omega), write_stdout]
    simp
  · intro hn
    by_cases hl : len = 0
    · rw [write_stdout, writeLoop, if_pos (by omega)]
    · rw [write_stdout, writeLoop, if_neg (by omega)]
      have hn0 : n ≠ 0 := by omega
      simp only [hn0, if_false]
      rw [writeLoop.eq_def]
      dsimp only
      rw [if_pos (by omega)]

/-- C8 amended witness: a single-byte write against each failure
script, concretely. -/
theorem write_stdout_failure_modes_witness :
    write_stdout 1 [WEv.errOther] = some false ∧
    write_stdout 1 [WEv.eagain false] = some false ∧
    write_stdout 1 [WEv.wrote 1] = some true :=
  ⟨(write_stdout_failure_modes 1 1 []).1 (by decide),
    (write_stdout_failure_modes 1 1 []).2.1 (by decide),
    (write_stdout_failure_modes 1 1 []).2.2.2.2.1 (by decide)⟩

end FolkMux
